import Mathlib

/-!
# is-email-disposable: the blocklist store and its query interface

A shallow embedding of `disposable.go`.

* A Go `string` is modelled as the sequence of runes it decodes to (`Str`).
* `strings.TrimSpace`, `strings.ToLower` and `strings.Split` are Go standard
  library functions; they are modelled here after the library's documented
  behaviour.  The rune-level case table `unicode.ToLower` is not part of the
  repository: it is a parameter `lower : Char → Char` of the embedding, and the
  facts about it that a proof relies on are collected in `LowerSpec`.
* `map[string]struct{}` is modelled as a duplicate-free list of keys.
* The package-level variables are gathered in the state record `Pkg`.
-/

namespace Disposable

/-- A Go string, seen as its sequence of runes. -/
abbrev Str := List Char

/-! ## Standard-library functions used by the package -/

/-- Go `unicode.IsSpace`: the runes with the Unicode White_Space property,
`U+0009..U+000D`, `U+0020`, `U+0085`, `U+00A0`, `U+1680`, `U+2000..U+200A`,
`U+2028`, `U+2029`, `U+202F`, `U+205F`, `U+3000`. -/
def unicode.IsSpace (c : Char) : Bool :=
  (9 ≤ c.toNat && c.toNat ≤ 13) || c.toNat == 0x20 || c.toNat == 0x85 || c.toNat == 0xA0 ||
  c.toNat == 0x1680 || (0x2000 ≤ c.toNat && c.toNat ≤ 0x200A) || c.toNat == 0x2028 ||
  c.toNat == 0x2029 || c.toNat == 0x202F || c.toNat == 0x205F || c.toNat == 0x3000

/-- Go `strings.TrimSpace`: the string without its leading and trailing
white space. -/
def strings.TrimSpace (s : Str) : Str :=
  (s.dropWhile unicode.IsSpace).rdropWhile unicode.IsSpace

/-- Go `strings.ToLower`: every rune replaced by its image under
`unicode.ToLower` (the parameter `lower`). -/
def strings.ToLower (lower : Char → Char) (s : Str) : Str :=
  s.map lower

/-- The ASCII branch of Go `strings.ToLower`: `'A'..'Z'` are shifted by
`'a' - 'A'`, every other rune is kept. -/
def asciiLower (c : Char) : Char :=
  if 65 ≤ c.toNat ∧ c.toNat ≤ 90 then Char.ofNat (c.toNat + 32) else c

/-- The facts about Go `unicode.ToLower` that the proofs below rely on. -/
structure LowerSpec (lower : Char → Char) : Prop where
  /-- On ASCII runes it is the ASCII case shift. -/
  ascii : ∀ c : Char, c.toNat < 128 → lower c = asciiLower c
  /-- A lower-cased rune is its own lower case. -/
  idem : ∀ c : Char, lower (lower c) = lower c
  /-- Lower-casing neither creates nor removes white space. -/
  space : ∀ c : Char, unicode.IsSpace (lower c) = unicode.IsSpace c
  /-- No other rune lower-cases to `'@'`. -/
  atSign : ∀ c : Char, lower c = '@' → c = '@'

/-- Go `strings.Index` for a one-rune separator: the position of the first
occurrence of `sep` in `s`, `none` for Go's `-1`. -/
def strings.Index : Str → Char → Option Nat
  | [], _ => none
  | c :: cs, sep => if c = sep then some 0 else (strings.Index cs sep).map (· + 1)

/-- Go `strings.Count` for a one-rune separator. -/
def strings.Count (s : Str) (sep : Char) : Nat :=
  s.count sep

/-- The loop of Go `strings.genSplit` (with `sepSave = 0`): `n` is the number
of cuts still allowed. -/
def strings.genSplit (sep : Char) : Nat → Str → List Str
  | 0, s => [s]
  | n + 1, s =>
    match strings.Index s sep with
    | none => [s]
    | some m => s.take m :: strings.genSplit sep n (s.drop (m + 1))

/-- Go `strings.Split(s, sep)` for a one-rune separator: `genSplit` with
`Count(s, sep) + 1` result slots. -/
def strings.Split (s : Str) (sep : Char) : List Str :=
  strings.genSplit sep (strings.Count s sep) s

/-! ## The domain map -/

/-- A Go `map[string]struct{}`: its keys, each present once. -/
structure DomainMap where
  keys : List Str
  nodup : keys.Nodup

namespace DomainMap

/-- The result of `make(map[string]struct{})`; a nil map reads the same. -/
def empty : DomainMap := ⟨[], List.nodup_nil⟩

/-- The statement `m[k] = struct{}{}`. -/
def set (m : DomainMap) (k : Str) : DomainMap :=
  if h : k ∈ m.keys then m
  else ⟨m.keys ++ [k], by
    rw [List.nodup_append]
    exact ⟨m.nodup, List.nodup_singleton k, by
      intro a ha hb
      rw [List.mem_singleton] at hb
      exact h (hb ▸ ha)⟩⟩

/-- The lookup `_, exists := m[k]`. -/
def has (m : DomainMap) (k : Str) : Bool :=
  decide (k ∈ m.keys)

/-- The builtin `len(m)`. -/
def len (m : DomainMap) : Nat :=
  m.keys.length

end DomainMap

/-! ## Package state and operations -/

/-- The package-level variables of `disposable.go`. -/
structure Pkg where
  /-- The embedded file `disposable_email_blocklist.conf`. -/
  blocklistData : Str
  /-- The variable `disposableDomains`. -/
  disposableDomains : DomainMap
  /-- Whether `initOnce` has already run its function. -/
  initOnce : Bool

/-- The package state before `init` runs: the map is nil and `initOnce` is
unused. -/
def Pkg.initial (blocklistData : Str) : Pkg :=
  ⟨blocklistData, DomainMap.empty, false⟩

/-- One iteration of the loop over the lines in `loadBlocklist`. -/
def loadLine (lower : Char → Char) (m : DomainMap) (line : Str) : DomainMap :=
  let domain := strings.TrimSpace line
  if domain = [] then m
  else m.set (strings.ToLower lower domain)

/-- Go `loadBlocklist`: under `initOnce.Do`, a fresh map is filled from the
lines of `blocklistData`. -/
def loadBlocklist (lower : Char → Char) (p : Pkg) : Pkg :=
  if p.initOnce then p
  else
    { p with
      disposableDomains := (strings.Split p.blocklistData '\n').foldl (loadLine lower) DomainMap.empty
      initOnce := true }

/-- The map that package initialisation builds from the raw text `raw`. -/
def built (lower : Char → Char) (raw : Str) : DomainMap :=
  (loadBlocklist lower (Pkg.initial raw)).disposableDomains

/-- Go `IsDisposableDomain`, reading the map `m` held in `disposableDomains`. -/
def IsDisposableDomain (lower : Char → Char) (m : DomainMap) (domain : Str) : Bool :=
  if domain = [] then false
  else m.has (strings.ToLower lower (strings.TrimSpace domain))

/-- Go `IsDisposable`, reading the map `m` held in `disposableDomains`.
`none` stands for the run-time panic of an index out of range at `parts[1]`. -/
def IsDisposable (lower : Char → Char) (m : DomainMap) (email : Str) : Option Bool :=
  if email = [] then some false
  else
    let parts := strings.Split email '@'
    if parts.length ≠ 2 then some false
    else
      match parts[1]? with
      | none => none
      | some p1 => some (IsDisposableDomain lower m (strings.TrimSpace p1))

/-- Go `GetAllDomains`: the keys are appended to a fresh slice in the order
in which the `range` loop yields them; `range` maps the keys of the map to
that order, which Go leaves unspecified. -/
def GetAllDomains (range : List Str → List Str) (m : DomainMap) : List Str :=
  (range m.keys).foldl (fun domains domain => domains ++ [domain]) []

/-- Go `Count`. -/
def Count (m : DomainMap) : Nat :=
  m.len

/-! ## Memory and call sequences

The package functions above read the map as a value.  To speak about what a
sequence of calls, or a caller that writes into a returned slice, can change,
the package variables are put next to a heap of `[]string` backing arrays. -/

/-- A Go `[]string` value: the address of its backing array and its length;
its capacity is the length of the backing array. -/
structure Slice where
  addr : Nat
  len : Nat

/-- The memory a program using the package works on: the package variables
and the backing arrays of the `[]string` values allocated so far, by address. -/
structure World where
  pkg : Pkg
  arrays : List (List Str)

/-- The state right after package initialisation: `init` has called
`loadBlocklist` and no slice has been allocated. -/
def World.init (lower : Char → Char) (blocklistData : Str) : World :=
  ⟨loadBlocklist lower (Pkg.initial blocklistData), []⟩

/-- The elements of the slice `s`, read from memory. -/
def World.read (w : World) (s : Slice) : List Str :=
  (w.arrays.getD s.addr []).take s.len

/-- Go `GetAllDomains` with its allocation: `make` creates a new backing array,
the loop fills it with the keys, and the slice over it is returned. -/
def World.GetAllDomains (range : List Str → List Str) (w : World) : Slice × World :=
  let domains := Disposable.GetAllDomains range w.pkg.disposableDomains
  (⟨w.arrays.length, domains.length⟩, { w with arrays := w.arrays ++ [domains] })

/-- What a caller can do with a `[]string` it holds. -/
inductive SliceOp where
  /-- The statement `s[i] = v`. -/
  | assign (i : Nat) (v : Str)
  /-- The statement `s = append(s, v)`. -/
  | append (v : Str)
  /-- The statement `s = append(s[:i], s[i+1:]...)`. -/
  | remove (i : Nat)
  /-- The statement `s = s[:n]`. -/
  | truncate (n : Nat)

/-- The effect of a slice statement on memory and on the slice variable.  An
index out of range is a run-time panic, which writes nothing. -/
def World.sliceOp (w : World) (s : Slice) : SliceOp → Slice × World
  | .assign i v =>
    let arr := w.arrays.getD s.addr []
    if i < s.len then (s, { w with arrays := w.arrays.set s.addr (arr.set i v) })
    else (s, w)
  | .append v =>
    let arr := w.arrays.getD s.addr []
    if s.len < arr.length then
      (⟨s.addr, s.len + 1⟩, { w with arrays := w.arrays.set s.addr (arr.set s.len v) })
    else
      (⟨w.arrays.length, s.len + 1⟩, { w with arrays := w.arrays ++ [arr.take s.len ++ [v]] })
  | .remove i =>
    let arr := w.arrays.getD s.addr []
    let moved := arr.take i ++ (arr.drop (i + 1)).take (s.len - (i + 1)) ++ arr.drop (s.len - 1)
    if i < s.len then (⟨s.addr, s.len - 1⟩, { w with arrays := w.arrays.set s.addr moved })
    else (s, w)
  | .truncate n =>
    if n ≤ (w.arrays.getD s.addr []).length then (⟨s.addr, n⟩, w)
    else (s, w)

/-- A run of slice statements on the slice variable `s`. -/
def World.sliceOps (w : World) (s : Slice) (ops : List SliceOp) : Slice × World :=
  ops.foldl (fun st op => st.2.sliceOp st.1 op) (s, w)

/-- A call of one of the package functions. -/
inductive Call where
  | IsDisposable (email : Str)
  | IsDisposableDomain (domain : Str)
  | GetAllDomains
  | Count
  | loadBlocklist

/-- The memory after a call.  `IsDisposable`, `IsDisposableDomain` and `Count`
assign no variable; `GetAllDomains` allocates its result; `loadBlocklist`
goes through `initOnce`. -/
def World.call (lower : Char → Char) (range : List Str → List Str) (w : World) :
    Call → World
  | .IsDisposable _ => w
  | .IsDisposableDomain _ => w
  | .GetAllDomains => (w.GetAllDomains range).2
  | .Count => w
  | .loadBlocklist => { w with pkg := loadBlocklist lower w.pkg }

/-! ## Vocabulary of the specification -/

/-- The text `t` with every `"\n"` replaced by `"\r\n"`. -/
def withCRLF (t : Str) : Str :=
  t.flatMap (fun c => if c = '\n' then ['\r', '\n'] else [c])

/-- The lines `ls` with `"\r"` added at the end of each but the last. -/
def addCR : List Str → List Str
  | [] => []
  | [l] => [l]
  | l :: l2 :: ls => (l ++ ['\r']) :: addCR (l2 :: ls)

/-- The strings `s` and `t` have the same lower-case form: they have the same
length and, position by position, `unicode.ToLower` sends the two runes to the
same rune.  This is the comparison the package makes; it is narrower than
`DiffersOnlyInCase`. -/
def SameLowerCase (lower : Char → Char) (s t : Str) : Prop :=
  List.Forall₂ (fun a b => lower a = lower b) s t

instance (lower : Char → Char) (s t : Str) : Decidable (SameLowerCase lower s t) := by
  unfold SameLowerCase
  infer_instance

/-- The strings `s` and `t` differ only in the letter case of their runes:
they have the same length and, position by position, the two runes are forms
of one letter, that is, they have the same lower-case form (`unicode.ToLower`)
or the same upper-case form (`unicode.ToUpper`). -/
def DiffersOnlyInCase (lower upper : Char → Char) (s t : Str) : Prop :=
  List.Forall₂ (fun a b => lower a = lower b ∨ upper a = upper b) s t

instance (lower upper : Char → Char) (s t : Str) :
    Decidable (DiffersOnlyInCase lower upper s t) := by
  unfold DiffersOnlyInCase
  infer_instance

/-- A string of ASCII runes only. -/
def IsASCII (s : Str) : Prop :=
  ∀ c ∈ s, c.toNat < 128

instance (s : Str) : Decidable (IsASCII s) := by
  unfold IsASCII
  infer_instance

/-- The ASCII part of Go `unicode.ToUpper`: `'a'..'z'` are shifted by
`'a' - 'A'`, every other rune is kept. -/
def asciiUpper (c : Char) : Char :=
  if 97 ≤ c.toNat ∧ c.toNat ≤ 122 then Char.ofNat (c.toNat - 32) else c

/-- Go `unicode.ToLower` on the ASCII runes, the Greek sigmas (`U+03A3` capital,
`U+03C3` small, `U+03C2` final) and dotless i (`U+0131`): capital sigma goes to
small sigma, final sigma and dotless i are lower-case already.  Runes outside
this set are kept. -/
def sampleLower (c : Char) : Char :=
  if c = 'Σ' then 'σ' else asciiLower c

/-- Go `unicode.ToUpper` on the same runes: small and final sigma both go to
capital sigma, dotless i goes to `I`.  Runes outside this set are kept. -/
def sampleUpper (c : Char) : Char :=
  if c = 'σ' ∨ c = 'ς' then 'Σ'
  else if c = 'ı' then 'I'
  else asciiUpper c

/-- A string made of white space only (the empty string included). -/
def WhitespaceOnly (w : Str) : Prop :=
  ∀ c ∈ w, unicode.IsSpace c = true

instance (w : Str) : Decidable (WhitespaceOnly w) := by
  unfold WhitespaceOnly
  infer_instance

/-- The order function `range` is a possible iteration order of a Go map: it
yields every key exactly once. -/
def RangeOrder (range : List Str → List Str) : Prop :=
  ∀ keys : List Str, (range keys).Perm keys

/-- The two-line raw text of the specification's scenario. -/
def scenarioRaw : Str := "0-mail.com\n10mail.org".toList

/-- The map whose only key is `tempmail.com`. -/
def tempmailOnly : DomainMap :=
  DomainMap.empty.set "tempmail.com".toList

/-- A raw text with the five domains that `TestBlocklistLoaded` looks up, one
per line. -/
def firstLinesRaw : Str :=
  "0-mail.com\n027168.com\n062e.com\n0815.ru\n10mail.org\n".toList

/-- A raw text with mixed case, surrounding white space, a blank line and a
Windows line ending. -/
def untidyRaw : Str :=
  " 0-Mail.COM \r\n\n10mail.org".toList

/-! ## Lemmas on the standard-library functions -/

theorem asciiLower_toNat (c : Char) (h : 65 ≤ c.toNat ∧ c.toNat ≤ 90) :
    (asciiLower c).toNat = c.toNat + 32 := by
  have hv : (c.toNat + 32).isValidChar := by
    left
    omega
  simp only [asciiLower, h, and_self, if_true]
  rw [Char.ofNat, dif_pos hv]
  rfl

theorem asciiLower_idem (c : Char) : asciiLower (asciiLower c) = asciiLower c := by
  by_cases h : 65 ≤ c.toNat ∧ c.toNat ≤ 90
  · have h2 := asciiLower_toNat c h
    have h3 : ¬ (65 ≤ (asciiLower c).toNat ∧ (asciiLower c).toNat ≤ 90) := by omega
    conv_lhs => rw [asciiLower, if_neg h3]
  · have e : asciiLower c = c := by rw [asciiLower, if_neg h]
    rw [e, e]

theorem asciiLower_space (c : Char) : unicode.IsSpace (asciiLower c) = unicode.IsSpace c := by
  by_cases h : 65 ≤ c.toNat ∧ c.toNat ≤ 90
  · have h2 := asciiLower_toNat c h
    have e1 : unicode.IsSpace (asciiLower c) = false := by
      simp only [unicode.IsSpace, h2]
      simp
      omega
    have e2 : unicode.IsSpace c = false := by
      simp only [unicode.IsSpace]
      simp
      omega
    rw [e1, e2]
  · rw [asciiLower, if_neg h]

theorem asciiLower_atSign (c : Char) (h : asciiLower c = '@') : c = '@' := by
  by_cases hc : 65 ≤ c.toNat ∧ c.toNat ≤ 90
  · have h2 := asciiLower_toNat c hc
    rw [h] at h2
    have : ('@' : Char).toNat = 64 := rfl
    omega
  · rwa [asciiLower, if_neg hc] at h

/-- The ASCII case shift satisfies every fact assumed of `unicode.ToLower`. -/
theorem asciiLower_spec : LowerSpec asciiLower :=
  ⟨fun _ _ => rfl, asciiLower_idem, asciiLower_space, asciiLower_atSign⟩

theorem asciiLower_toNat_eq (c : Char) :
    (asciiLower c).toNat = if 65 ≤ c.toNat ∧ c.toNat ≤ 90 then c.toNat + 32 else c.toNat := by
  by_cases h : 65 ≤ c.toNat ∧ c.toNat ≤ 90
  · rw [if_pos h, asciiLower_toNat c h]
  · rw [if_neg h, asciiLower, if_neg h]

theorem asciiUpper_toNat_eq (c : Char) :
    (asciiUpper c).toNat = if 97 ≤ c.toNat ∧ c.toNat ≤ 122 then c.toNat - 32 else c.toNat := by
  by_cases h : 97 ≤ c.toNat ∧ c.toNat ≤ 122
  · have hv : (c.toNat - 32).isValidChar := by
      left
      omega
    rw [if_pos h, asciiUpper, if_pos h, Char.ofNat, dif_pos hv]
    rfl
  · rw [if_neg h, asciiUpper, if_neg h]

theorem char_eq_of_toNat_eq (a b : Char) (h : a.toNat = b.toNat) : a = b := by
  rw [← Char.ofNat_toNat a, ← Char.ofNat_toNat b, h]

/-- Two runes with the same ASCII upper-case form have the same ASCII
lower-case form. -/
theorem asciiLower_eq_of_asciiUpper_eq (c d : Char) (h : asciiUpper c = asciiUpper d) :
    asciiLower c = asciiLower d := by
  apply char_eq_of_toNat_eq
  have hu := congrArg Char.toNat h
  rw [asciiUpper_toNat_eq, asciiUpper_toNat_eq] at hu
  rw [asciiLower_toNat_eq, asciiLower_toNat_eq]
  split at hu <;> split at hu <;> split <;> split <;> omega

theorem asciiLower_ne_capital_sigma (c : Char) (h : c ≠ 'Σ') : asciiLower c ≠ 'Σ' := by
  intro e
  by_cases hc : 65 ≤ c.toNat ∧ c.toNat ≤ 90
  · have h2 := asciiLower_toNat c hc
    rw [e] at h2
    have : ('Σ' : Char).toNat = 931 := by decide
    omega
  · rw [asciiLower, if_neg hc] at e
    exact h e

/-- The sample table satisfies every fact assumed of `unicode.ToLower`. -/
theorem sampleLower_spec : LowerSpec sampleLower := by
  refine ⟨?_, ?_, ?_, ?_⟩
  · intro c hc
    have hne : c ≠ 'Σ' := by
      intro e
      rw [e] at hc
      revert hc
      decide
    rw [sampleLower, if_neg hne]
  · intro c
    by_cases hs : c = 'Σ'
    · rw [hs]
      decide
    · have e1 : sampleLower c = asciiLower c := by rw [sampleLower, if_neg hs]
      rw [e1, sampleLower, if_neg (asciiLower_ne_capital_sigma c hs), asciiLower_idem]
  · intro c
    by_cases hs : c = 'Σ'
    · rw [hs]
      decide
    · rw [sampleLower, if_neg hs, asciiLower_space]
  · intro c h
    by_cases hs : c = 'Σ'
    · subst hs
      revert h
      decide
    · rw [sampleLower, if_neg hs] at h
      exact asciiLower_atSign c h

theorem Index_of_not_mem (sep : Char) :
    ∀ s : Str, sep ∉ s → strings.Index s sep = none
  | [], _ => rfl
  | c :: cs, h => by
    have hc : c ≠ sep := fun e => h (e ▸ List.mem_cons_self c cs)
    have hcs : sep ∉ cs := fun e => h (List.mem_cons_of_mem c e)
    simp [strings.Index, hc, Index_of_not_mem sep cs hcs]

theorem Index_append_cons (sep : Char) (r : Str) :
    ∀ l : Str, sep ∉ l → strings.Index (l ++ sep :: r) sep = some l.length
  | [], _ => by simp [strings.Index]
  | c :: cs, h => by
    have hc : c ≠ sep := fun e => h (e ▸ List.mem_cons_self c cs)
    have hcs : sep ∉ cs := fun e => h (List.mem_cons_of_mem c e)
    simp [strings.Index, hc, Index_append_cons sep r cs hcs]

/-- A string that contains `sep` is cut at its first occurrence. -/
theorem exists_first_cut (sep : Char) :
    ∀ s : Str, sep ∈ s → ∃ l r : Str, s = l ++ sep :: r ∧ sep ∉ l
  | [], h => by simp at h
  | c :: cs, h => by
    by_cases hc : c = sep
    · exact ⟨[], cs, by simp [hc], by simp⟩
    · have hcs : sep ∈ cs := by
        rcases List.mem_cons.1 h with e | e
        · exact absurd e.symm hc
        · exact e
      obtain ⟨l, r, e, hl⟩ := exists_first_cut sep cs hcs
      refine ⟨c :: l, r, by simp [e], ?_⟩
      intro hm
      rcases List.mem_cons.1 hm with e2 | e2
      · exact hc e2.symm
      · exact hl e2

theorem genSplit_of_not_mem (sep : Char) (n : Nat) (s : Str) (h : sep ∉ s) :
    strings.genSplit sep n s = [s] := by
  cases n with
  | zero => rfl
  | succ n => simp [strings.genSplit, Index_of_not_mem sep s h]

theorem genSplit_append_cons (sep : Char) (n : Nat) (l r : Str) (h : sep ∉ l) :
    strings.genSplit sep (n + 1) (l ++ sep :: r) = l :: strings.genSplit sep n r := by
  simp [strings.genSplit, Index_append_cons sep r l h]

theorem count_append_cons (sep : Char) (l r : Str) (h : sep ∉ l) :
    strings.Count (l ++ sep :: r) sep = strings.Count r sep + 1 := by
  simp [strings.Count, List.count_append, List.count_eq_zero_of_not_mem h]

/-- The split has one part more than the string has separators. -/
theorem genSplit_length (sep : Char) :
    ∀ (n : Nat) (s : Str), strings.Count s sep = n →
      (strings.genSplit sep n s).length = n + 1
  | 0, _, _ => rfl
  | n + 1, s, h => by
    have hm : sep ∈ s := by
      have : 0 < s.count sep := by
        simp only [strings.Count] at h
        omega
      exact List.count_pos_iff.1 this
    obtain ⟨l, r, e, hl⟩ := exists_first_cut sep s hm
    subst e
    rw [count_append_cons sep l r hl] at h
    rw [genSplit_append_cons sep n l r hl, List.length_cons,
      genSplit_length sep n r (by omega)]

theorem Split_length (s : Str) (sep : Char) :
    (strings.Split s sep).length = strings.Count s sep + 1 :=
  genSplit_length sep _ s rfl

/-- A string with exactly one separator splits into what is before it and
what is after it. -/
theorem Split_append_cons (sep : Char) (l r : Str) (hl : sep ∉ l) (hr : sep ∉ r) :
    strings.Split (l ++ sep :: r) sep = [l, r] := by
  have hc : strings.Count r sep = 0 := by
    simp [strings.Count, List.count_eq_zero_of_not_mem hr]
  rw [strings.Split, count_append_cons sep l r hl, hc,
    genSplit_append_cons sep 0 l r hl]
  rfl

/-- Joining the parts of a split with the separator gives the string back. -/
theorem genSplit_join (sep : Char) :
    ∀ (n : Nat) (s : Str), List.intercalate [sep] (strings.genSplit sep n s) = s
  | 0, s => by simp [strings.genSplit, List.intercalate]
  | n + 1, s => by
    by_cases hm : sep ∈ s
    · obtain ⟨l, r, e, hl⟩ := exists_first_cut sep s hm
      subst e
      rw [genSplit_append_cons sep n l r hl]
      have ih := genSplit_join sep n r
      cases hg : strings.genSplit sep n r with
      | nil =>
        cases n with
        | zero => simp [strings.genSplit] at hg
        | succ k =>
          simp only [strings.genSplit] at hg
          split at hg <;> simp at hg
      | cons p ps =>
        rw [hg] at ih
        simp only [List.intercalate, List.intersperse, List.flatten] at ih ⊢
        rw [ih]
        rfl
    · rw [genSplit_of_not_mem sep _ s hm]
      simp [List.intercalate]

/-- No part of a split contains the separator. -/
theorem genSplit_parts (sep : Char) :
    ∀ (n : Nat) (s : Str), strings.Count s sep = n →
      ∀ p ∈ strings.genSplit sep n s, sep ∉ p
  | 0, s, h => by
    intro p hp
    simp only [strings.genSplit, List.mem_singleton] at hp
    subst hp
    exact List.count_eq_zero.1 h
  | n + 1, s, h => by
    have hm : sep ∈ s := by
      have : 0 < s.count sep := by
        simp only [strings.Count] at h
        omega
      exact List.count_pos_iff.1 this
    obtain ⟨l, r, e, hl⟩ := exists_first_cut sep s hm
    subst e
    rw [count_append_cons sep l r hl] at h
    rw [genSplit_append_cons sep n l r hl]
    intro p hp
    rcases List.mem_cons.1 hp with e | e
    · exact e ▸ hl
    · exact genSplit_parts sep n r (by omega) p e

theorem dropWhile_of_all {p : Char → Bool} (w x : Str) (h : ∀ c ∈ w, p c = true) :
    (w ++ x).dropWhile p = x.dropWhile p := by
  have e : w.dropWhile p = [] := List.dropWhile_eq_nil_iff.2 h
  rw [List.dropWhile_append, e]
  rfl

theorem rdropWhile_of_all {p : Char → Bool} (x w : Str) (h : ∀ c ∈ w, p c = true) :
    (x ++ w).rdropWhile p = x.rdropWhile p := by
  have h2 : ∀ c ∈ w.reverse, p c = true := fun c hc => h c (List.mem_reverse.1 hc)
  rw [List.rdropWhile, List.reverse_append, dropWhile_of_all w.reverse x.reverse h2]
  rfl

theorem rdropWhile_cons_of_neg {p : Char → Bool} (a : Char) (t : Str) (h : p a = false) :
    (a :: t).rdropWhile p = a :: t.rdropWhile p := by
  rw [List.rdropWhile, List.reverse_cons, List.dropWhile_append]
  by_cases he : (t.reverse.dropWhile p).isEmpty = true
  · have e : t.reverse.dropWhile p = [] := List.isEmpty_iff.1 he
    simp [List.rdropWhile, e, h]
  · simp [List.rdropWhile, he]

/-- The trimmed string is empty exactly when the string is white space only. -/
theorem TrimSpace_eq_nil_iff (s : Str) :
    strings.TrimSpace s = [] ↔ ∀ c ∈ s, unicode.IsSpace c = true := by
  rw [strings.TrimSpace, List.rdropWhile_eq_nil_iff]
  constructor
  · intro h
    have e : s.dropWhile unicode.IsSpace = [] := by
      cases hd : s.dropWhile unicode.IsSpace with
      | nil => rfl
      | cons a t =>
        have hne : s.dropWhile unicode.IsSpace ≠ [] := by simp [hd]
        have h1 := List.head_dropWhile_not unicode.IsSpace s hne
        have h2 := h _ (List.head_mem hne)
        rw [h1] at h2
        exact absurd h2 (by simp)
    exact List.dropWhile_eq_nil_iff.1 e
  · intro h
    rw [List.dropWhile_eq_nil_iff.2 h]
    simp

/-- White space around a string does not change its trimmed form. -/
theorem TrimSpace_append (w1 d w2 : Str)
    (h1 : ∀ c ∈ w1, unicode.IsSpace c = true) (h2 : ∀ c ∈ w2, unicode.IsSpace c = true) :
    strings.TrimSpace (w1 ++ d ++ w2) = strings.TrimSpace d := by
  rw [strings.TrimSpace, strings.TrimSpace, List.append_assoc, dropWhile_of_all w1 _ h1,
    List.dropWhile_append]
  by_cases he : (d.dropWhile unicode.IsSpace).isEmpty = true
  · have e : d.dropWhile unicode.IsSpace = [] := List.isEmpty_iff.1 he
    rw [if_pos he, e, List.dropWhile_eq_nil_iff.2 h2]
  · rw [if_neg he, rdropWhile_of_all _ w2 h2]

/-- Trimming twice is trimming once. -/
theorem TrimSpace_idem (s : Str) :
    strings.TrimSpace (strings.TrimSpace s) = strings.TrimSpace s := by
  have key : ∀ x : Str, x.dropWhile unicode.IsSpace = x →
      (x.rdropWhile unicode.IsSpace).dropWhile unicode.IsSpace
        = x.rdropWhile unicode.IsSpace := by
    intro x hx
    cases x with
    | nil => simp [List.rdropWhile]
    | cons a t =>
      have ha : unicode.IsSpace a = false := by
        cases hsp : unicode.IsSpace a with
        | false => rfl
        | true =>
          rw [List.dropWhile_cons_of_pos hsp] at hx
          have hl := congrArg List.length hx
          have hle := (List.dropWhile_sublist unicode.IsSpace (l := t)).length_le
          simp at hl
          omega
      rw [rdropWhile_cons_of_neg a t ha, List.dropWhile_cons_of_neg (by simp [ha])]
  rw [strings.TrimSpace, strings.TrimSpace, key _ (List.dropWhile_idempotent _ _),
    List.rdropWhile_idempotent]

/-- Trimming commutes with a rune map that keeps white space white space and
everything else not. -/
theorem TrimSpace_map (f : Char → Char) (hf : ∀ c, unicode.IsSpace (f c) = unicode.IsSpace c)
    (s : Str) : strings.TrimSpace (s.map f) = (strings.TrimSpace s).map f := by
  have hcomp : unicode.IsSpace ∘ f = unicode.IsSpace := funext hf
  have hd : ∀ x : Str, (x.map f).dropWhile unicode.IsSpace
      = (x.dropWhile unicode.IsSpace).map f := by
    intro x
    rw [List.dropWhile_map, hcomp]
  rw [strings.TrimSpace, strings.TrimSpace, hd, List.rdropWhile, List.rdropWhile,
    ← List.map_reverse, hd, List.map_reverse]

/-! ## Lemmas on the domain map and on loading -/

theorem DomainMap.mem_set (m : DomainMap) (k x : Str) :
    x ∈ (m.set k).keys ↔ x ∈ m.keys ∨ x = k := by
  unfold DomainMap.set
  split
  · next h =>
    constructor
    · exact Or.inl
    · rintro (h1 | h1)
      · exact h1
      · exact h1 ▸ h
  · simp

theorem mem_foldl_loadLine (lower : Char → Char) :
    ∀ (lines : List Str) (m : DomainMap) (x : Str),
      x ∈ (lines.foldl (loadLine lower) m).keys ↔
        x ∈ m.keys ∨ ∃ l ∈ lines, strings.TrimSpace l ≠ [] ∧
          x = strings.ToLower lower (strings.TrimSpace l)
  | [], m, x => by simp
  | l :: ls, m, x => by
    rw [List.foldl_cons, mem_foldl_loadLine lower ls]
    by_cases hl : strings.TrimSpace l = []
    · simp [loadLine, hl]
    · simp only [loadLine, hl, if_false, DomainMap.mem_set, List.mem_cons, exists_eq_or_imp,
        ne_eq, not_false_eq_true, true_and]
      tauto

/-- The keys of the map built from `raw`: the lower-cased trimmed forms of
the lines that are not blank. -/
theorem mem_built (lower : Char → Char) (raw x : Str) :
    x ∈ (built lower raw).keys ↔
      ∃ l ∈ strings.Split raw '\n', strings.TrimSpace l ≠ [] ∧
        x = strings.ToLower lower (strings.TrimSpace l) := by
  simp [built, loadBlocklist, Pkg.initial, mem_foldl_loadLine, DomainMap.empty]

/-- The empty string is not a key of a built map. -/
theorem nil_not_mem_built (lower : Char → Char) (raw : Str) :
    [] ∉ (built lower raw).keys := by
  intro h
  obtain ⟨l, _, hne, e⟩ := (mem_built lower raw []).1 h
  exact hne (List.map_eq_nil_iff.1 e.symm)

theorem IsDisposableDomain_iff (lower : Char → Char) (m : DomainMap) (d : Str) :
    IsDisposableDomain lower m d = true ↔
      d ≠ [] ∧ strings.ToLower lower (strings.TrimSpace d) ∈ m.keys := by
  by_cases hd : d = []
  · simp [IsDisposableDomain, hd]
  · simp [IsDisposableDomain, hd, DomainMap.has]

theorem IsDisposable_of_one_at (lower : Char → Char) (m : DomainMap) (l s : Str)
    (hl : '@' ∉ l) (hs : '@' ∉ s) :
    IsDisposable lower m (l ++ '@' :: s)
      = some (IsDisposableDomain lower m (strings.TrimSpace s)) := by
  have hne : l ++ '@' :: s ≠ [] := by simp
  simp [IsDisposable, hne, Split_append_cons '@' l s hl hs]

/-! ## Case-insensitivity lemmas -/

theorem SameLowerCase_iff (lower : Char → Char) :
    ∀ s t : Str, SameLowerCase lower s t ↔ strings.ToLower lower s = strings.ToLower lower t
  | [], [] => by simp [SameLowerCase, strings.ToLower]
  | [], b :: t => by simp [SameLowerCase, strings.ToLower]
  | a :: s, [] => by simp [SameLowerCase, strings.ToLower]
  | a :: s, b :: t => by
    have ih := SameLowerCase_iff lower s t
    simp only [SameLowerCase, strings.ToLower] at ih
    simp [SameLowerCase, strings.ToLower, ih]

theorem lower_atSign_iff {lower : Char → Char} (hL : LowerSpec lower) (c : Char) :
    lower c = '@' ↔ c = '@' := by
  constructor
  · exact hL.atSign c
  · intro h
    subst h
    rw [hL.ascii '@' (by decide)]
    decide

theorem Index_map (f : Char → Char) (sep : Char) (hf : ∀ c, f c = sep ↔ c = sep) :
    ∀ s : Str, strings.Index (s.map f) sep = strings.Index s sep
  | [] => rfl
  | c :: cs => by
    simp only [List.map_cons, strings.Index, Index_map f sep hf cs]
    by_cases hc : c = sep
    · rw [if_pos hc, if_pos ((hf c).2 hc)]
    · rw [if_neg hc, if_neg (fun h => hc ((hf c).1 h))]

theorem Count_map (f : Char → Char) (sep : Char) (hf : ∀ c, f c = sep ↔ c = sep) :
    ∀ s : Str, strings.Count (s.map f) sep = strings.Count s sep
  | [] => rfl
  | c :: cs => by
    have ih := Count_map f sep hf cs
    simp only [strings.Count] at ih
    simp only [strings.Count, List.map_cons, List.count_cons, ih]
    by_cases hc : c = sep
    · have : f c = sep := (hf c).2 hc
      rw [hc] at this
      simp [hc, this]
    · have : f c ≠ sep := fun h => hc ((hf c).1 h)
      simp [hc, this]

theorem genSplit_map (f : Char → Char) (sep : Char) (hf : ∀ c, f c = sep ↔ c = sep) :
    ∀ (n : Nat) (s : Str),
      strings.genSplit sep n (s.map f) = (strings.genSplit sep n s).map (List.map f)
  | 0, s => rfl
  | n + 1, s => by
    simp only [strings.genSplit, Index_map f sep hf s]
    cases strings.Index s sep with
    | none => rfl
    | some k =>
      simp only [List.map_cons, ← List.map_take, ← List.map_drop,
        genSplit_map f sep hf n (s.drop (k + 1))]

theorem Split_map (f : Char → Char) (sep : Char) (hf : ∀ c, f c = sep ↔ c = sep) (s : Str) :
    strings.Split (s.map f) sep = (strings.Split s sep).map (List.map f) := by
  rw [strings.Split, strings.Split, Count_map f sep hf, genSplit_map f sep hf]

/-- Strings with the same lower case are looked up alike. -/
theorem IsDisposableDomain_congr {lower : Char → Char} (hL : LowerSpec lower) (m : DomainMap)
    (x y : Str) (h : x.map lower = y.map lower) :
    IsDisposableDomain lower m x = IsDisposableDomain lower m y := by
  have hxy : x = [] ↔ y = [] := by
    have hlen := congrArg List.length h
    simp only [List.length_map] at hlen
    rw [← List.length_eq_zero, ← List.length_eq_zero (l := y), hlen]
  have hn : strings.ToLower lower (strings.TrimSpace x)
      = strings.ToLower lower (strings.TrimSpace y) := by
    rw [strings.ToLower, strings.ToLower, ← TrimSpace_map lower hL.space,
      ← TrimSpace_map lower hL.space, h]
  by_cases hx : x = []
  · simp [IsDisposableDomain, hx, hxy.1 hx]
  · have hy : y ≠ [] := fun e => hx (hxy.2 e)
    simp [IsDisposableDomain, hx, hy, hn]

theorem IsDisposable_congr {lower : Char → Char} (hL : LowerSpec lower) (m : DomainMap)
    (e1 e2 : Str) (h : e1.map lower = e2.map lower) :
    IsDisposable lower m e1 = IsDisposable lower m e2 := by
  have hnil : e1 = [] ↔ e2 = [] := by
    have hlen := congrArg List.length h
    simp only [List.length_map] at hlen
    rw [← List.length_eq_zero, ← List.length_eq_zero (l := e2), hlen]
  have hsplit : (strings.Split e1 '@').map (List.map lower)
      = (strings.Split e2 '@').map (List.map lower) := by
    rw [← Split_map lower '@' (lower_atSign_iff hL), ← Split_map lower '@' (lower_atSign_iff hL), h]
  have hlen : (strings.Split e1 '@').length = (strings.Split e2 '@').length := by
    have := congrArg List.length hsplit
    simpa using this
  have hget : ((strings.Split e1 '@')[1]?).map (List.map lower)
      = ((strings.Split e2 '@')[1]?).map (List.map lower) := by
    rw [← List.getElem?_map, ← List.getElem?_map, hsplit]
  by_cases h1 : e1 = []
  · simp [IsDisposable, h1, hnil.1 h1]
  · have h2 : e2 ≠ [] := fun e => h1 (hnil.2 e)
    simp only [IsDisposable, h1, h2, if_false, hlen]
    by_cases hl : (strings.Split e2 '@').length = 2
    · simp only [hl, ne_eq, not_true_eq_false, if_false]
      cases hp : (strings.Split e1 '@')[1]? with
      | none =>
        cases hq : (strings.Split e2 '@')[1]? with
        | none => rfl
        | some q => rw [hp, hq] at hget; simp at hget
      | some p =>
        cases hq : (strings.Split e2 '@')[1]? with
        | none => rw [hp, hq] at hget; simp at hget
        | some q =>
          rw [hp, hq] at hget
          simp only [Option.map_some', Option.some.injEq] at hget
          have ht : (strings.TrimSpace p).map lower = (strings.TrimSpace q).map lower := by
            rw [← TrimSpace_map lower hL.space, ← TrimSpace_map lower hL.space, hget]
          simp only [IsDisposableDomain_congr hL m _ _ ht]
    · simp [hl]

/-! ## Enumeration lemmas -/

theorem foldl_append_singleton (init : List Str) :
    ∀ l : List Str, l.foldl (fun domains domain => domains ++ [domain]) init = init ++ l
  | [] => by simp
  | a :: l => by
    rw [List.foldl_cons, foldl_append_singleton (init ++ [a]) l]
    simp

/-- The slice returned by `GetAllDomains` is the sequence of keys in the
iteration order. -/
theorem GetAllDomains_eq (range : List Str → List Str) (m : DomainMap) :
    GetAllDomains range m = range m.keys := by
  rw [GetAllDomains, foldl_append_singleton]
  rfl

theorem ToLower_of_ascii_lower {lower : Char → Char} (hL : LowerSpec lower) (s : Str)
    (h : ∀ c ∈ s, c.toNat < 128 ∧ asciiLower c = c) : strings.ToLower lower s = s := by
  rw [strings.ToLower]
  conv_rhs => rw [← List.map_id s]
  apply List.map_congr_left
  intro c hc
  rw [hL.ascii c (h c hc).1, (h c hc).2]
  rfl

theorem built_scenario_keys {lower : Char → Char} (hL : LowerSpec lower) :
    (built lower scenarioRaw).keys = ["0-mail.com".toList, "10mail.org".toList] := by
  have hs : strings.Split scenarioRaw '\n' = ["0-mail.com".toList, "10mail.org".toList] := by
    decide
  have t1 : strings.TrimSpace "0-mail.com".toList = "0-mail.com".toList := by decide
  have t2 : strings.TrimSpace "10mail.org".toList = "10mail.org".toList := by decide
  have l1 := ToLower_of_ascii_lower hL "0-mail.com".toList (by decide)
  have l2 := ToLower_of_ascii_lower hL "10mail.org".toList (by decide)
  have n1 : "0-mail.com".toList ≠ [] := by decide
  have n2 : "10mail.org".toList ≠ [] := by decide
  simp only [built, loadBlocklist, Pkg.initial, hs, List.foldl_cons, List.foldl_nil, loadLine,
    t1, t2, l1, l2, n1, n2, if_false, Bool.false_eq_true]
  decide

/-! ## Lemmas on the stored domains and on `IsDisposable` -/

/-- A key of a built map is not empty, is trimmed and is lower-cased. -/
theorem built_key_normal {lower : Char → Char} (hL : LowerSpec lower) (raw d : Str)
    (hd : d ∈ (built lower raw).keys) :
    d ≠ [] ∧ strings.TrimSpace d = d ∧ strings.ToLower lower d = d := by
  obtain ⟨line, _, _, hdl⟩ := (mem_built lower raw d).1 hd
  refine ⟨fun e => nil_not_mem_built lower raw (e ▸ hd), ?_, ?_⟩
  · rw [hdl, strings.ToLower, TrimSpace_map lower hL.space, TrimSpace_idem]
  · rw [hdl, strings.ToLower, strings.ToLower, List.map_map]
    exact List.map_congr_left (fun c _ => hL.idem c)

theorem IsDisposable_of_count_ne_one (lower : Char → Char) (m : DomainMap) (e : Str)
    (h : strings.Count e '@' ≠ 1) : IsDisposable lower m e = some false := by
  by_cases he : e = []
  · simp [IsDisposable, he]
  · have hlen : (strings.Split e '@').length ≠ 2 := by
      rw [Split_length]
      omega
    simp [IsDisposable, he, hlen]

/-- A string with exactly one separator is what is before it, the separator,
and what is after it. -/
theorem exists_cut_of_count_one (sep : Char) (e : Str) (h : strings.Count e sep = 1) :
    ∃ l s : Str, e = l ++ sep :: s ∧ sep ∉ l ∧ sep ∉ s := by
  have hm : sep ∈ e := by
    have : 0 < e.count sep := by
      simp only [strings.Count] at h
      omega
    exact List.count_pos_iff.1 this
  obtain ⟨l, r, e1, hl⟩ := exists_first_cut sep e hm
  subst e1
  rw [count_append_cons sep l r hl] at h
  refine ⟨l, r, rfl, hl, ?_⟩
  have h0 : r.count sep = 0 := by
    simp only [strings.Count] at h
    omega
  exact List.count_eq_zero.1 h0

theorem Count_eq_zero_iff (m : DomainMap) : Count m = 0 ↔ ∀ x : Str, x ∉ m.keys := by
  rw [Count, DomainMap.len, List.length_eq_zero, List.eq_nil_iff_forall_not_mem]

/-! ## Lemmas on line endings -/

theorem withCRLF_of_not_mem : ∀ l : Str, '\n' ∉ l → withCRLF l = l
  | [], _ => rfl
  | c :: cs, h => by
    have hc : c ≠ '\n' := fun e => h (e ▸ List.mem_cons_self c cs)
    have hcs : '\n' ∉ cs := fun e => h (List.mem_cons_of_mem c e)
    have ih := withCRLF_of_not_mem cs hcs
    simp only [withCRLF] at ih
    simp [withCRLF, hc, ih]

theorem withCRLF_cut (l r : Str) (h : '\n' ∉ l) :
    withCRLF (l ++ '\n' :: r) = (l ++ ['\r']) ++ '\n' :: withCRLF r := by
  have hl := withCRLF_of_not_mem l h
  simp only [withCRLF] at hl
  simp [withCRLF, hl]

theorem Split_cut (sep : Char) (l r : Str) (h : sep ∉ l) :
    strings.Split (l ++ sep :: r) sep = l :: strings.Split r sep := by
  rw [strings.Split, count_append_cons sep l r h, genSplit_append_cons sep _ l r h]
  rfl

theorem Split_ne_nil (s : Str) (sep : Char) : strings.Split s sep ≠ [] := by
  intro h
  have := Split_length s sep
  rw [h] at this
  simp at this

theorem addCR_cons (l : Str) : ∀ ls : List Str, ls ≠ [] →
    addCR (l :: ls) = (l ++ ['\r']) :: addCR ls
  | [], h => absurd rfl h
  | _ :: _, _ => rfl

/-- The lines of the text with Windows line endings are the lines of the
text, each but the last followed by a carriage return. -/
theorem Split_withCRLF :
    ∀ (n : Nat) (t : Str), strings.Count t '\n' = n →
      strings.Split (withCRLF t) '\n' = addCR (strings.Split t '\n')
  | 0, t, h => by
    have hm : '\n' ∉ t := List.count_eq_zero.1 h
    rw [withCRLF_of_not_mem t hm, strings.Split, genSplit_of_not_mem '\n' _ t hm]
    rfl
  | n + 1, t, h => by
    have hm : '\n' ∈ t := by
      have : 0 < t.count '\n' := by
        simp only [strings.Count] at h
        omega
      exact List.count_pos_iff.1 this
    obtain ⟨l, r, e, hl⟩ := exists_first_cut '\n' t hm
    subst e
    rw [count_append_cons '\n' l r hl] at h
    have hl2 : '\n' ∉ l ++ ['\r'] := by
      intro hmem
      rcases List.mem_append.1 hmem with h1 | h1
      · exact hl h1
      · revert h1
        decide
    rw [withCRLF_cut l r hl, Split_cut '\n' _ _ hl2, Split_cut '\n' l r hl,
      Split_withCRLF n r (by omega), addCR_cons l _ (Split_ne_nil r '\n')]

theorem loadLine_CR (lower : Char → Char) (m : DomainMap) (l : Str) :
    loadLine lower m (l ++ ['\r']) = loadLine lower m l := by
  have h := TrimSpace_append [] l ['\r'] (by simp) (by decide)
  simp only [List.nil_append] at h
  simp only [loadLine, h]

theorem foldl_loadLine_addCR (lower : Char → Char) :
    ∀ (ls : List Str) (m : DomainMap),
      (addCR ls).foldl (loadLine lower) m = ls.foldl (loadLine lower) m
  | [], _ => rfl
  | [_], _ => rfl
  | l :: l2 :: ls, m => by
    simp only [addCR, List.foldl_cons, loadLine_CR]
    exact foldl_loadLine_addCR lower (l2 :: ls) (loadLine lower m l)

theorem built_withCRLF (lower : Char → Char) (t : Str) :
    built lower (withCRLF t) = built lower t := by
  simp only [built, loadBlocklist, Pkg.initial, Bool.false_eq_true, if_false]
  rw [Split_withCRLF _ t rfl, foldl_loadLine_addCR]

/-- The last rune of a trimmed string is not white space. -/
theorem TrimSpace_getLast (s : Str) (c : Char) (h : (strings.TrimSpace s).getLast? = some c) :
    unicode.IsSpace c = false := by
  have hne : strings.TrimSpace s ≠ [] := by
    intro e
    rw [e] at h
    simp at h
  rw [List.getLast?_eq_getLast _ hne] at h
  have hc := Option.some.inj h
  have hn := List.rdropWhile_last_not (p := unicode.IsSpace)
    (l := s.dropWhile unicode.IsSpace) hne
  rw [← hc]
  simpa [strings.TrimSpace] using hn

/-! ## Lemmas on memory and call sequences -/

theorem loadBlocklist_of_done (lower : Char → Char) (p : Pkg) (h : p.initOnce = true) :
    loadBlocklist lower p = p := by
  simp [loadBlocklist, h]

theorem loadBlocklist_done (lower : Char → Char) (p : Pkg) :
    (loadBlocklist lower p).initOnce = true := by
  cases h : p.initOnce <;> simp [loadBlocklist, h]

theorem call_pkg (lower : Char → Char) (range : List Str → List Str) (w : World) (c : Call)
    (h : w.pkg.initOnce = true) : (w.call lower range c).pkg = w.pkg := by
  cases c with
  | loadBlocklist => exact loadBlocklist_of_done lower w.pkg h
  | _ => rfl

theorem calls_pkg (lower : Char → Char) (range : List Str → List Str) :
    ∀ (calls : List Call) (w : World), w.pkg.initOnce = true →
      (calls.foldl (World.call lower range) w).pkg = w.pkg
  | [], _, _ => rfl
  | c :: cs, w, h => by
    have h1 := call_pkg lower range w c h
    rw [List.foldl_cons, calls_pkg lower range cs (w.call lower range c) (h1 ▸ h), h1]

theorem sliceOp_pkg (w : World) (s : Slice) (op : SliceOp) :
    (w.sliceOp s op).2.pkg = w.pkg := by
  cases op <;> simp only [World.sliceOp] <;> split <;> rfl

theorem sliceOps_pkg : ∀ (ops : List SliceOp) (w : World) (s : Slice),
    (w.sliceOps s ops).2.pkg = w.pkg
  | [], _, _ => rfl
  | op :: ops, w, s => by
    have ih := sliceOps_pkg ops (w.sliceOp s op).2 (w.sliceOp s op).1
    simp only [World.sliceOps] at ih
    simp only [World.sliceOps, List.foldl_cons]
    rw [ih, sliceOp_pkg]

/-- Read right after the call, the slice returned by `GetAllDomains` holds the
keys in the iteration order. -/
theorem read_GetAllDomains (range : List Str → List Str) (w : World) :
    (w.GetAllDomains range).2.read (w.GetAllDomains range).1
      = GetAllDomains range w.pkg.disposableDomains := by
  simp [World.GetAllDomains, World.read]

/-! ## Lemmas on letter case -/

/-- On ASCII strings, differing only in letter case is having the same
lower-case form. -/
theorem sameLowerCase_of_ascii {lower : Char → Char} (hL : LowerSpec lower) (s t : Str)
    (hs : IsASCII s) (ht : IsASCII t) (h : DiffersOnlyInCase asciiLower asciiUpper s t) :
    SameLowerCase lower s t := by
  unfold DiffersOnlyInCase at h
  unfold SameLowerCase
  induction h with
  | nil => exact List.Forall₂.nil
  | @cons a b l1 l2 hab _ ih =>
    have ha : a.toNat < 128 := hs a (List.mem_cons_self a l1)
    have hb : b.toNat < 128 := ht b (List.mem_cons_self b l2)
    refine List.Forall₂.cons ?_
      (ih (fun c hc => hs c (List.mem_cons_of_mem a hc))
        (fun c hc => ht c (List.mem_cons_of_mem b hc)))
    rw [hL.ascii a ha, hL.ascii b hb]
    rcases hab with h1 | h1
    · exact h1
    · exact asciiLower_eq_of_asciiUpper_eq a b h1

/-- A string with the same lower-case form as a key of a built map is
found. -/
theorem IsDisposableDomain_of_sameLowerCase {lower : Char → Char} (hL : LowerSpec lower)
    (raw D C : Str) (hD : D ∈ (built lower raw).keys) (hC : SameLowerCase lower C D) :
    IsDisposableDomain lower (built lower raw) C = true := by
  obtain ⟨_, hT, hDD⟩ := built_key_normal hL raw D hD
  have hCD : C.map lower = D := by
    have := (SameLowerCase_iff lower C D).1 hC
    rw [hDD] at this
    exact this
  have hDne : D ≠ [] := fun e => nil_not_mem_built lower raw (e ▸ hD)
  have hCne : C ≠ [] := by
    intro e
    rw [e] at hCD
    exact hDne hCD.symm
  rw [IsDisposableDomain_iff]
  refine ⟨hCne, ?_⟩
  rw [strings.ToLower, ← TrimSpace_map lower hL.space, hCD, hT]
  exact hD

/-! ## Properties of the specification -/

/-- C1: `IsDisposableDomain(d)` is true exactly when `d` is not the empty
string and `ToLower(TrimSpace(d))` is equal to a key of the blocklist map;
with the map `{"tempmail.com"}` the string `"nottempmail.com"`, which has the
key as a suffix, gives false. -/
theorem C1_isDisposableDomain_exact_match :
    (∀ (lower : Char → Char) (m : DomainMap) (d : Str),
      IsDisposableDomain lower m d = true ↔
        d ≠ [] ∧ strings.ToLower lower (strings.TrimSpace d) ∈ m.keys) ∧
    (∀ lower : Char → Char,
      IsDisposableDomain lower tempmailOnly "nottempmail.com".toList = false) := by
  refine ⟨IsDisposableDomain_iff, fun lower => ?_⟩
  rw [← Bool.not_eq_true, IsDisposableDomain_iff]
  rintro ⟨_, h⟩
  have hk : tempmailOnly.keys = ["tempmail.com".toList] := by decide
  rw [hk, List.mem_singleton] at h
  have ht : strings.TrimSpace "nottempmail.com".toList = "nottempmail.com".toList := by decide
  rw [ht] at h
  have hlen := congrArg List.length h
  simp [strings.ToLower] at hlen

/-- C2: a string that does not contain exactly one `'@'` is never classified
as disposable: `IsDisposable` returns false on it. -/
theorem C2_isDisposable_false_unless_one_at (lower : Char → Char) (m : DomainMap) (e : Str)
    (h : strings.Count e '@' ≠ 1) :
    IsDisposable lower m e = some false := by
  by_cases he : e = []
  · simp [IsDisposable, he]
  · have hlen : (strings.Split e '@').length ≠ 2 := by
      rw [Split_length]
      omega
    simp [IsDisposable, he, hlen]

/-- C2, at the inputs `""`, `"notanemail"`, `"a@@b.com"` and
`"test@@example.com"` with the scenario's blocklist. -/
theorem C2_witness :
    IsDisposable asciiLower (built asciiLower scenarioRaw) "".toList = some false ∧
    IsDisposable asciiLower (built asciiLower scenarioRaw) "notanemail".toList = some false ∧
    IsDisposable asciiLower (built asciiLower scenarioRaw) "a@@b.com".toList = some false ∧
    IsDisposable asciiLower (built asciiLower scenarioRaw) "test@@example.com".toList
      = some false :=
  ⟨C2_isDisposable_false_unless_one_at _ _ _ (by decide),
   C2_isDisposable_false_unless_one_at _ _ _ (by decide),
   C2_isDisposable_false_unless_one_at _ _ _ (by decide),
   C2_isDisposable_false_unless_one_at _ _ _ (by decide)⟩

/-- C3: on a string with exactly one `'@'`, `IsDisposable` is
`IsDisposableDomain` of the trimmed substring after the `'@'`. -/
theorem C3_isDisposable_delegates (lower : Char → Char) (m : DomainMap) (l s : Str)
    (hl : '@' ∉ l) (hs : '@' ∉ s) :
    IsDisposable lower m (l ++ '@' :: s)
      = some (IsDisposableDomain lower m (strings.TrimSpace s)) :=
  IsDisposable_of_one_at lower m l s hl hs

/-- C3, at the input `"user@0-mail.com "` with the scenario's blocklist. -/
theorem C3_witness :
    IsDisposable asciiLower (built asciiLower scenarioRaw) "user@0-mail.com ".toList
        = some (IsDisposableDomain asciiLower (built asciiLower scenarioRaw)
            (strings.TrimSpace "0-mail.com ".toList)) ∧
      IsDisposableDomain asciiLower (built asciiLower scenarioRaw)
        (strings.TrimSpace "0-mail.com ".toList) = true :=
  ⟨C3_isDisposable_delegates asciiLower (built asciiLower scenarioRaw)
      "user".toList "0-mail.com ".toList (by decide) (by decide),
   by decide⟩

/-- C6: normalising the argument first does not change the answer of
`IsDisposableDomain`, for every string, the empty and the white-space-only
ones included. -/
theorem C6_normalization_idempotent (lower : Char → Char) (hL : LowerSpec lower)
    (raw d : Str) :
    IsDisposableDomain lower (built lower raw) d
      = IsDisposableDomain lower (built lower raw)
          (strings.ToLower lower (strings.TrimSpace d)) := by
  have hN : strings.ToLower lower (strings.TrimSpace
      (strings.ToLower lower (strings.TrimSpace d)))
      = strings.ToLower lower (strings.TrimSpace d) := by
    simp only [strings.ToLower]
    rw [TrimSpace_map lower hL.space, TrimSpace_idem, List.map_map]
    exact List.map_congr_left (fun c _ => hL.idem c)
  rw [Bool.eq_iff_iff, IsDisposableDomain_iff, IsDisposableDomain_iff, hN]
  constructor
  · rintro ⟨_, hm⟩
    exact ⟨fun e => nil_not_mem_built lower raw (e ▸ hm), hm⟩
  · rintro ⟨hne, hm⟩
    refine ⟨?_, hm⟩
    intro e
    apply hne
    rw [e]
    rfl

/-- C6, at `" 0-MAIL.com "` (disposable), at the empty string and at a blank
string (both not disposable). -/
theorem C6_witness :
    IsDisposableDomain asciiLower (built asciiLower scenarioRaw) " 0-MAIL.com ".toList
      = IsDisposableDomain asciiLower (built asciiLower scenarioRaw) "0-mail.com".toList ∧
    IsDisposableDomain asciiLower (built asciiLower scenarioRaw) "".toList
      = IsDisposableDomain asciiLower (built asciiLower scenarioRaw) "".toList ∧
    IsDisposableDomain asciiLower (built asciiLower scenarioRaw) "  ".toList
      = IsDisposableDomain asciiLower (built asciiLower scenarioRaw) "".toList ∧
    IsDisposableDomain asciiLower (built asciiLower scenarioRaw) " 0-MAIL.com ".toList = true ∧
    IsDisposableDomain asciiLower (built asciiLower scenarioRaw) "  ".toList = false :=
  ⟨C6_normalization_idempotent asciiLower asciiLower_spec scenarioRaw " 0-MAIL.com ".toList,
   C6_normalization_idempotent asciiLower asciiLower_spec scenarioRaw "".toList,
   C6_normalization_idempotent asciiLower asciiLower_spec scenarioRaw "  ".toList,
   by decide, by decide⟩

/-- C7: white space around the domain is ignored, by `IsDisposableDomain`
and, after the `'@'`, by `IsDisposable`. -/
theorem C7_whitespace_around_domain (lower : Char → Char) (raw l d w1 w2 : Str)
    (hl : '@' ∉ l) (hd : '@' ∉ d) (hw1 : WhitespaceOnly w1) (hw2 : WhitespaceOnly w2) :
    IsDisposableDomain lower (built lower raw) (w1 ++ d ++ w2)
        = IsDisposableDomain lower (built lower raw) d ∧
      IsDisposable lower (built lower raw) (l ++ '@' :: (w1 ++ d ++ w2))
        = IsDisposable lower (built lower raw) (l ++ '@' :: d) := by
  have hT := TrimSpace_append w1 d w2 hw1 hw2
  have hat : ∀ w : Str, WhitespaceOnly w → '@' ∉ w := by
    intro w hw hm
    have := hw '@' hm
    revert this
    decide
  constructor
  · rw [Bool.eq_iff_iff, IsDisposableDomain_iff, IsDisposableDomain_iff, hT]
    constructor
    · rintro ⟨_, hm⟩
      refine ⟨?_, hm⟩
      intro e
      apply nil_not_mem_built lower raw
      rw [e] at hm
      exact hm
    · rintro ⟨hne, hm⟩
      refine ⟨?_, hm⟩
      intro e
      apply hne
      have e2 := (List.append_eq_nil.1 e).1
      exact (List.append_eq_nil.1 e2).2
  · have hall : '@' ∉ w1 ++ d ++ w2 := by
      intro hm
      rcases List.mem_append.1 hm with h1 | h1
      · rcases List.mem_append.1 h1 with h2 | h2
        · exact hat w1 hw1 h2
        · exact hd h2
      · exact hat w2 hw2 h1
    rw [IsDisposable_of_one_at lower _ l _ hl hall, IsDisposable_of_one_at lower _ l d hl hd,
      hT]

/-- C7, at `" 0-mail.com "` and `"user@0-mail.com "`. -/
theorem C7_witness :
    (IsDisposableDomain asciiLower (built asciiLower scenarioRaw) " 0-mail.com ".toList
        = IsDisposableDomain asciiLower (built asciiLower scenarioRaw) "0-mail.com".toList ∧
      IsDisposable asciiLower (built asciiLower scenarioRaw) "user@ 0-mail.com ".toList
        = IsDisposable asciiLower (built asciiLower scenarioRaw) "user@0-mail.com".toList) ∧
    (IsDisposableDomain asciiLower (built asciiLower scenarioRaw) "0-mail.com ".toList
        = IsDisposableDomain asciiLower (built asciiLower scenarioRaw) "0-mail.com".toList ∧
      IsDisposable asciiLower (built asciiLower scenarioRaw) "user@0-mail.com ".toList
        = IsDisposable asciiLower (built asciiLower scenarioRaw) "user@0-mail.com".toList) ∧
    IsDisposable asciiLower (built asciiLower scenarioRaw) "user@0-mail.com ".toList
      = some true :=
  ⟨C7_whitespace_around_domain asciiLower scenarioRaw "user".toList "0-mail.com".toList
      " ".toList " ".toList (by decide) (by decide) (by decide) (by decide),
   C7_whitespace_around_domain asciiLower scenarioRaw "user".toList "0-mail.com".toList
      "".toList " ".toList (by decide) (by decide) (by decide) (by decide),
   by decide⟩

/-- C8: the set built by `loadBlocklist` from a raw text is exactly the set of
`ToLower(TrimSpace(l))` for the lines `l` of the text whose trimmed form is not
empty, the lines being the pieces between the line breaks: joined by `"\n"`
they give the text back and none of them contains `"\n"`. -/
theorem C8_loadBlocklist_set (lower : Char → Char) (raw : Str) :
    (∀ x : Str, x ∈ (loadBlocklist lower (Pkg.initial raw)).disposableDomains.keys ↔
      ∃ l ∈ strings.Split raw '\n', strings.TrimSpace l ≠ [] ∧
        x = strings.ToLower lower (strings.TrimSpace l)) ∧
    List.intercalate ['\n'] (strings.Split raw '\n') = raw ∧
    (∀ l ∈ strings.Split raw '\n', '\n' ∉ l) :=
  ⟨mem_built lower raw, genSplit_join '\n' _ raw, genSplit_parts '\n' _ raw rfl⟩

/-- C9: `Count()` is the length of the slice returned by `GetAllDomains()`,
whatever order the map iteration takes. -/
theorem C9_count_eq_length_getAllDomains (range : List Str → List Str)
    (hr : RangeOrder range) (m : DomainMap) :
    Count m = (GetAllDomains range m).length := by
  rw [GetAllDomains_eq, (hr m.keys).length_eq]
  rfl

/-- C9, on the scenario's blocklist iterated in reverse insertion order. -/
theorem C9_witness :
    Count (built asciiLower scenarioRaw)
        = (GetAllDomains List.reverse (built asciiLower scenarioRaw)).length ∧
      Count (built asciiLower scenarioRaw) = 2 :=
  ⟨C9_count_eq_length_getAllDomains List.reverse List.reverse_perm
      (built asciiLower scenarioRaw),
   by decide⟩

/-- C10: `GetAllDomains()` returns every member of the built set exactly once
and nothing else, whatever order the map iteration takes; for the raw text
with the two lines `0-mail.com` and `10mail.org` the result is a permutation of
these two strings and `Count()` is 2. -/
theorem C10_getAllDomains_enumerates (lower : Char → Char) (hL : LowerSpec lower)
    (range : List Str → List Str) (hr : RangeOrder range) (raw : Str) :
    (GetAllDomains range (built lower raw)).Nodup ∧
      (∀ d : Str, d ∈ GetAllDomains range (built lower raw) ↔
        (built lower raw).has d = true) ∧
      (GetAllDomains range (built lower scenarioRaw)).Perm
        ["0-mail.com".toList, "10mail.org".toList] ∧
      Count (built lower scenarioRaw) = 2 := by
  refine ⟨?_, fun d => ?_, ?_, ?_⟩
  · rw [GetAllDomains_eq, (hr (built lower raw).keys).nodup_iff]
    exact (built lower raw).nodup
  · rw [GetAllDomains_eq, (hr (built lower raw).keys).mem_iff]
    simp [DomainMap.has]
  · rw [GetAllDomains_eq, ← built_scenario_keys hL]
    exact hr _
  · rw [Count, DomainMap.len, built_scenario_keys hL]
    rfl

/-- C10, on a raw text whose three lines normalise to the same domain and on
the scenario's raw text, iterated in reverse insertion order. -/
theorem C10_witness :
    ((GetAllDomains List.reverse (built asciiLower "A.com\na.com\n a.COM \n".toList)).Nodup ∧
      (∀ d : Str,
        d ∈ GetAllDomains List.reverse (built asciiLower "A.com\na.com\n a.COM \n".toList) ↔
          (built asciiLower "A.com\na.com\n a.COM \n".toList).has d = true) ∧
      (GetAllDomains List.reverse (built asciiLower scenarioRaw)).Perm
        ["0-mail.com".toList, "10mail.org".toList] ∧
      Count (built asciiLower scenarioRaw) = 2) ∧
    GetAllDomains List.reverse (built asciiLower "A.com\na.com\n a.COM \n".toList)
      = ["a.com".toList] ∧
    GetAllDomains List.reverse (built asciiLower scenarioRaw)
      = ["10mail.org".toList, "0-mail.com".toList] :=
  ⟨C10_getAllDomains_enumerates asciiLower asciiLower_spec List.reverse List.reverse_perm
      "A.com\na.com\n a.COM \n".toList,
   by decide, by decide⟩

/-- C11: after loading, `IsDisposableDomain` finds every raw line whose
trimmed form is not empty, given with its original case and surrounding
white space. -/
theorem C11_load_query_round_trip (lower : Char → Char) (raw l : Str)
    (hl : l ∈ strings.Split raw '\n') (hne : strings.TrimSpace l ≠ []) :
    IsDisposableDomain lower (built lower raw) l = true := by
  rw [IsDisposableDomain_iff]
  refine ⟨?_, (mem_built lower raw _).2 ⟨l, hl, hne, rfl⟩⟩
  intro e
  apply hne
  rw [e]
  rfl

/-- C11, at the five lines of `firstLinesRaw` and at the untidy first line of
`untidyRaw`. -/
theorem C11_witness :
    IsDisposableDomain asciiLower (built asciiLower firstLinesRaw) "0-mail.com".toList = true ∧
    IsDisposableDomain asciiLower (built asciiLower firstLinesRaw) "027168.com".toList = true ∧
    IsDisposableDomain asciiLower (built asciiLower firstLinesRaw) "062e.com".toList = true ∧
    IsDisposableDomain asciiLower (built asciiLower firstLinesRaw) "0815.ru".toList = true ∧
    IsDisposableDomain asciiLower (built asciiLower firstLinesRaw) "10mail.org".toList = true ∧
    IsDisposableDomain asciiLower (built asciiLower untidyRaw) " 0-Mail.COM \r".toList = true :=
  ⟨C11_load_query_round_trip asciiLower firstLinesRaw _ (by decide) (by decide),
   C11_load_query_round_trip asciiLower firstLinesRaw _ (by decide) (by decide),
   C11_load_query_round_trip asciiLower firstLinesRaw _ (by decide) (by decide),
   C11_load_query_round_trip asciiLower firstLinesRaw _ (by decide) (by decide),
   C11_load_query_round_trip asciiLower firstLinesRaw _ (by decide) (by decide),
   C11_load_query_round_trip asciiLower untidyRaw _ (by decide) (by decide)⟩

/-- C12, refuted as stated: the raw texts `!!!` and `a b`, whose only line is
not a domain name, give a set with one member, not the empty set. -/
theorem C12_counterexample :
    Count (built asciiLower "!!!".toList) ≠ 0 ∧
    Count (built asciiLower "!!!".toList) = 1 ∧
    (built asciiLower "!!!".toList).has "!!!".toList = true ∧
    Count (built asciiLower "a b".toList) ≠ 0 ∧
    Count (built asciiLower "a b".toList) = 1 ∧
    (built asciiLower "a b".toList).has "a b".toList = true := by
  decide

/-- C12, amended: loading always completes, and the built set is empty
(`Count() = 0`) exactly when no line of the raw text has a non-empty trimmed
form, as for the empty raw text; a non-blank line is stored whatever it
contains. -/
theorem C12_loadBlocklist_empty_iff_blank (lower : Char → Char) (raw : Str) :
    (loadBlocklist lower (Pkg.initial raw)).initOnce = true ∧
    (Count (built lower raw) = 0 ↔ ∀ l ∈ strings.Split raw '\n', strings.TrimSpace l = []) ∧
    Count (built lower []) = 0 ∧
    (∀ l ∈ strings.Split raw '\n', strings.TrimSpace l ≠ [] →
      (built lower raw).has (strings.ToLower lower (strings.TrimSpace l)) = true) := by
  refine ⟨rfl, ?_, rfl, ?_⟩
  · rw [Count_eq_zero_iff]
    constructor
    · intro h l hl
      by_contra hne
      exact h _ ((mem_built lower raw _).2 ⟨l, hl, hne, rfl⟩)
    · intro h x hx
      obtain ⟨l, hl, hne, _⟩ := (mem_built lower raw x).1 hx
      exact hne (h l hl)
  · intro l hl hne
    simp only [DomainMap.has, decide_eq_true_eq]
    exact (mem_built lower raw _).2 ⟨l, hl, hne, rfl⟩

/-- C13: the queries are total: `IsDisposable` always returns a boolean, the
access `parts[1]` is within bounds whenever the split has two parts, the
split is complete (no part still holds an `'@'`), and `IsDisposableDomain`
returns a boolean. -/
theorem C13_queries_total (lower : Char → Char) (m : DomainMap) (s : Str) :
    (∃ b : Bool, IsDisposable lower m s = some b) ∧
    ((strings.Split s '@').length = 2 → ∃ p1 : Str, (strings.Split s '@')[1]? = some p1) ∧
    (∀ p ∈ strings.Split s '@', '@' ∉ p) ∧
    (IsDisposableDomain lower m s = true ∨ IsDisposableDomain lower m s = false) := by
  have hget : (strings.Split s '@').length = 2 →
      ∃ p1 : Str, (strings.Split s '@')[1]? = some p1 := by
    intro h2
    have h1 : 1 < (strings.Split s '@').length := by omega
    exact ⟨(strings.Split s '@')[1], List.getElem?_eq_getElem h1⟩
  refine ⟨?_, hget, genSplit_parts '@' _ s rfl, ?_⟩
  · by_cases he : s = []
    · exact ⟨false, by simp [IsDisposable, he]⟩
    · by_cases h2 : (strings.Split s '@').length = 2
      · obtain ⟨p1, hp1⟩ := hget h2
        exact ⟨IsDisposableDomain lower m (strings.TrimSpace p1), by
          simp [IsDisposable, he, h2, hp1]⟩
      · exact ⟨false, by simp [IsDisposable, he, h2]⟩
  · cases IsDisposableDomain lower m s
    · exact Or.inr rfl
    · exact Or.inl rfl

/-- C14: once the first `loadBlocklist` has built the set, no sequence of
calls of `IsDisposable`, `IsDisposableDomain`, `GetAllDomains`, `Count` and
`loadBlocklist` changes it, and a further `loadBlocklist` alone changes no
package variable. -/
theorem C14_blocklist_never_changes (lower : Char → Char) (range : List Str → List Str)
    (raw : Str) (calls : List Call) :
    (calls.foldl (World.call lower range) (World.init lower raw)).pkg.disposableDomains
        = built lower raw ∧
      (calls.foldl (World.call lower range) (World.init lower raw)).pkg
        = loadBlocklist lower (Pkg.initial raw) ∧
      (∀ p : Pkg, loadBlocklist lower (loadBlocklist lower p) = loadBlocklist lower p) := by
  have h := calls_pkg lower range calls (World.init lower raw)
    (loadBlocklist_done lower (Pkg.initial raw))
  refine ⟨?_, h, fun p => loadBlocklist_of_done lower _ (loadBlocklist_done lower p)⟩
  rw [h]
  rfl

/-- C14, on the scenario's raw text with one call of each function, and on a
second `loadBlocklist` after the embedded text would have been replaced. -/
theorem C14_witness :
    (([Call.IsDisposable "a@0-mail.com".toList, Call.loadBlocklist, Call.GetAllDomains,
        Call.Count, Call.IsDisposableDomain "x".toList, Call.loadBlocklist].foldl
        (World.call asciiLower List.reverse) (World.init asciiLower scenarioRaw)
      ).pkg.disposableDomains = built asciiLower scenarioRaw) ∧
    (built asciiLower scenarioRaw).keys = ["0-mail.com".toList, "10mail.org".toList] ∧
    (loadBlocklist asciiLower
        { loadBlocklist asciiLower (Pkg.initial scenarioRaw) with
          blocklistData := "other.com".toList }).disposableDomains.keys
      = ["0-mail.com".toList, "10mail.org".toList] :=
  ⟨(C14_blocklist_never_changes asciiLower List.reverse scenarioRaw _).1,
   by decide, by decide⟩

/-- C15: `GetAllDomains` returns a copy: whatever a caller then does with the
returned slice (overwrite, append, remove, reslice), `Count`,
`IsDisposableDomain`, `IsDisposable` and a new `GetAllDomains` give what they
gave on the memory before. -/
theorem C15_getAllDomains_defensive_copy (lower : Char → Char)
    (range range2 : List Str → List Str) (w : World) (ops : List SliceOp) (d : Str) :
    let r1 := w.GetAllDomains range
    let r2 := r1.2.sliceOps r1.1 ops
    let r3 := r2.2.GetAllDomains range2
    r1.2.read r1.1 = GetAllDomains range w.pkg.disposableDomains ∧
      Count r2.2.pkg.disposableDomains = Count w.pkg.disposableDomains ∧
      IsDisposableDomain lower r2.2.pkg.disposableDomains d
        = IsDisposableDomain lower w.pkg.disposableDomains d ∧
      IsDisposable lower r2.2.pkg.disposableDomains d
        = IsDisposable lower w.pkg.disposableDomains d ∧
      r3.2.read r3.1 = GetAllDomains range2 w.pkg.disposableDomains := by
  intro r1 r2 r3
  have h1 : r1.2.pkg = w.pkg := rfl
  have h2 : r2.2.pkg = w.pkg := by
    rw [← h1]
    exact sliceOps_pkg ops r1.2 r1.1
  refine ⟨read_GetAllDomains range w, ?_, ?_, ?_, ?_⟩
  · rw [h2]
  · rw [h2]
  · rw [h2]
  · rw [← h2]
    exact read_GetAllDomains range2 r2.2

/-- C15, on the scenario's blocklist: the caller overwrites both elements of
the returned slice, then appends to it and removes from it; the slice has
changed, the answers of the package have not. -/
theorem C15_witness :
    (let w := World.init asciiLower scenarioRaw
     let r1 := w.GetAllDomains id
     let r2 := r1.2.sliceOps r1.1
       [SliceOp.assign 0 "gmail.com".toList, SliceOp.assign 1 "x.org".toList,
        SliceOp.append "y.org".toList, SliceOp.remove 1]
     let r3 := r2.2.GetAllDomains id
     r1.2.read r1.1 = GetAllDomains id w.pkg.disposableDomains ∧
      Count r2.2.pkg.disposableDomains = Count w.pkg.disposableDomains ∧
      IsDisposableDomain asciiLower r2.2.pkg.disposableDomains "gmail.com".toList
        = IsDisposableDomain asciiLower w.pkg.disposableDomains "gmail.com".toList ∧
      IsDisposable asciiLower r2.2.pkg.disposableDomains "gmail.com".toList
        = IsDisposable asciiLower w.pkg.disposableDomains "gmail.com".toList ∧
      r3.2.read r3.1 = GetAllDomains id w.pkg.disposableDomains) ∧
    (let w := World.init asciiLower scenarioRaw
     let r1 := w.GetAllDomains id
     let r2 := r1.2.sliceOps r1.1
       [SliceOp.assign 0 "gmail.com".toList, SliceOp.assign 1 "x.org".toList,
        SliceOp.append "y.org".toList, SliceOp.remove 1]
     let r3 := r2.2.GetAllDomains id
     r1.2.read r1.1 = ["0-mail.com".toList, "10mail.org".toList] ∧
      r2.2.read r2.1 = ["gmail.com".toList, "y.org".toList] ∧
      r3.2.read r3.1 = ["0-mail.com".toList, "10mail.org".toList] ∧
      IsDisposableDomain asciiLower r2.2.pkg.disposableDomains "gmail.com".toList = false ∧
      Count r2.2.pkg.disposableDomains = 2) :=
  ⟨C15_getAllDomains_defensive_copy asciiLower id id (World.init asciiLower scenarioRaw)
      [SliceOp.assign 0 "gmail.com".toList, SliceOp.assign 1 "x.org".toList,
       SliceOp.append "y.org".toList, SliceOp.remove 1] "gmail.com".toList,
   by decide⟩

/-- C17: every member of the set built by `loadBlocklist` is non-empty, has no
leading or trailing white space and is lower-cased; in particular the empty
string is never a member. -/
theorem C17_stored_domain_invariant (lower : Char → Char) (hL : LowerSpec lower)
    (raw d : Str) (hd : d ∈ (built lower raw).keys) :
    d ≠ [] ∧ strings.TrimSpace d = d ∧ strings.ToLower lower d = d ∧
      [] ∉ (built lower raw).keys :=
  ⟨(built_key_normal hL raw d hd).1, (built_key_normal hL raw d hd).2.1,
   (built_key_normal hL raw d hd).2.2, nil_not_mem_built lower raw⟩

/-- C17, at the member `0-mail.com` stored for the line `" 0-Mail.COM \r"` of
`untidyRaw`. -/
theorem C17_witness :
    "0-mail.com".toList ∈ (built asciiLower untidyRaw).keys ∧
    ("0-mail.com".toList ≠ [] ∧
      strings.TrimSpace "0-mail.com".toList = "0-mail.com".toList ∧
      strings.ToLower asciiLower "0-mail.com".toList = "0-mail.com".toList ∧
      [] ∉ (built asciiLower untidyRaw).keys) :=
  ⟨by decide,
   C17_stored_domain_invariant asciiLower asciiLower_spec untidyRaw "0-mail.com".toList
    (by decide)⟩

/-- C18: `IsDisposable(e)` is true exactly when `e` has exactly one `'@'` and
`ToLower(TrimSpace(s))` is a member of the built set, `s` being the substring
after the `'@'`; the local part plays no role, and a domain portion that is
empty or white space only gives false. -/
theorem C18_isDisposable_characterisation (lower : Char → Char) (raw e : Str) :
    (IsDisposable lower (built lower raw) e = some true ↔
      ∃ l s : Str, e = l ++ '@' :: s ∧ '@' ∉ l ∧ '@' ∉ s ∧
        strings.ToLower lower (strings.TrimSpace s) ∈ (built lower raw).keys) ∧
    (∀ l1 l2 s : Str, '@' ∉ l1 → '@' ∉ l2 → '@' ∉ s →
      IsDisposable lower (built lower raw) (l1 ++ '@' :: s)
        = IsDisposable lower (built lower raw) (l2 ++ '@' :: s)) ∧
    (∀ l w : Str, '@' ∉ l → WhitespaceOnly w →
      IsDisposable lower (built lower raw) (l ++ '@' :: w) = some false) := by
  have hdom : ∀ s : Str, IsDisposableDomain lower (built lower raw) (strings.TrimSpace s) = true ↔
      strings.ToLower lower (strings.TrimSpace s) ∈ (built lower raw).keys := by
    intro s
    rw [IsDisposableDomain_iff, TrimSpace_idem]
    constructor
    · exact fun h => h.2
    · intro h
      refine ⟨?_, h⟩
      intro e0
      apply nil_not_mem_built lower raw
      rw [e0] at h
      exact h
  refine ⟨?_, ?_, ?_⟩
  · constructor
    · intro h
      by_cases hc : strings.Count e '@' = 1
      · obtain ⟨l, s, he, hl, hs⟩ := exists_cut_of_count_one '@' e hc
        refine ⟨l, s, he, hl, hs, ?_⟩
        rw [he, IsDisposable_of_one_at lower _ l s hl hs] at h
        exact (hdom s).1 (Option.some.inj h)
      · rw [IsDisposable_of_count_ne_one lower _ e hc] at h
        exact absurd (Option.some.inj h) (by decide)
    · rintro ⟨l, s, he, hl, hs, hm⟩
      rw [he, IsDisposable_of_one_at lower _ l s hl hs, (hdom s).2 hm]
  · intro l1 l2 s h1 h2 hs
    rw [IsDisposable_of_one_at lower _ l1 s h1 hs, IsDisposable_of_one_at lower _ l2 s h2 hs]
  · intro l w hl hw
    have hat : '@' ∉ w := by
      intro hm
      have := hw '@' hm
      revert this
      decide
    rw [IsDisposable_of_one_at lower _ l w hl hat]
    congr 1
    rw [← Bool.not_eq_true, hdom, (TrimSpace_eq_nil_iff w).2 hw]
    exact nil_not_mem_built lower raw

/-- C18, on the scenario's blocklist: an empty local part and a local part
with white space are classified like any other, `"user@"` and `"user@  "` are
not disposable. -/
theorem C18_witness :
    IsDisposable asciiLower (built asciiLower scenarioRaw) "@0-mail.com".toList = some true ∧
    IsDisposable asciiLower (built asciiLower scenarioRaw) "us er @0-mail.com".toList
      = some true ∧
    IsDisposable asciiLower (built asciiLower scenarioRaw) "user@gmail.com".toList
      = some false ∧
    IsDisposable asciiLower (built asciiLower scenarioRaw) "user@".toList = some false ∧
    IsDisposable asciiLower (built asciiLower scenarioRaw) "user@  ".toList = some false :=
  ⟨((C18_isDisposable_characterisation asciiLower scenarioRaw "@0-mail.com".toList).1).2
      ⟨[], "0-mail.com".toList, rfl, by decide, by decide, by decide⟩,
   ((C18_isDisposable_characterisation asciiLower scenarioRaw
      "us er @0-mail.com".toList).1).2
      ⟨"us er ".toList, "0-mail.com".toList, rfl, by decide, by decide, by decide⟩,
   by decide,
   (C18_isDisposable_characterisation asciiLower scenarioRaw []).2.2
      "user".toList [] (by decide) (by decide),
   (C18_isDisposable_characterisation asciiLower scenarioRaw []).2.2
      "user".toList "  ".toList (by decide) (by decide)⟩

/-- C19: `loadBlocklist` builds the same map from a raw text and from that
text with every `"\n"` replaced by `"\r\n"` (whether or not the text already
holds carriage returns), and no stored domain ends in `"\r"`. -/
theorem C19_line_ending_independence (lower : Char → Char) (hL : LowerSpec lower) (t : Str) :
    built lower (withCRLF t) = built lower t ∧
      (∀ x : Str, x ∈ (built lower (withCRLF t)).keys ↔ x ∈ (built lower t).keys) ∧
      (∀ x ∈ (built lower (withCRLF t)).keys, x.getLast? ≠ some '\r') ∧
      (∀ x ∈ (built lower t).keys, x.getLast? ≠ some '\r') := by
  have hend : ∀ raw : Str, ∀ x ∈ (built lower raw).keys, x.getLast? ≠ some '\r' := by
    intro raw x hx hlast
    obtain ⟨l, _, _, hxl⟩ := (mem_built lower raw x).1 hx
    rw [hxl, strings.ToLower, List.getLast?_map] at hlast
    cases hc : (strings.TrimSpace l).getLast? with
    | none => rw [hc] at hlast; simp at hlast
    | some c =>
      rw [hc] at hlast
      simp only [Option.map_some', Option.some.injEq] at hlast
      have h1 := TrimSpace_getLast l c hc
      have h2 := hL.space c
      rw [hlast, h1] at h2
      revert h2
      decide
  refine ⟨built_withCRLF lower t, fun x => ?_, hend _, hend _⟩
  rw [built_withCRLF]

/-- C19, at the two-line text `"0-mail.com\n10mail.org\n"` and its Windows
form. -/
theorem C19_witness :
    (built asciiLower (withCRLF "0-mail.com\n10mail.org\n".toList)
        = built asciiLower "0-mail.com\n10mail.org\n".toList ∧
      (∀ x : Str, x ∈ (built asciiLower (withCRLF "0-mail.com\n10mail.org\n".toList)).keys ↔
        x ∈ (built asciiLower "0-mail.com\n10mail.org\n".toList).keys) ∧
      (∀ x ∈ (built asciiLower (withCRLF "0-mail.com\n10mail.org\n".toList)).keys,
        x.getLast? ≠ some '\r') ∧
      (∀ x ∈ (built asciiLower "0-mail.com\n10mail.org\n".toList).keys,
        x.getLast? ≠ some '\r')) ∧
    withCRLF "0-mail.com\n10mail.org\n".toList = "0-mail.com\r\n10mail.org\r\n".toList ∧
    (built asciiLower "0-mail.com\r\n10mail.org\r\n".toList).keys
      = ["0-mail.com".toList, "10mail.org".toList] :=
  ⟨C19_line_ending_independence asciiLower asciiLower_spec "0-mail.com\n10mail.org\n".toList,
   by decide, by decide⟩

end Disposable

